import Mathlib

/-!
Verification of the PDF Text Analyzer backend (`backend/server.cjs`).

The analysis core consists of three functions:
* `calculateStats`   (server.cjs lines 54-66),
* `calculateWordFrequency` (server.cjs lines 75-89),
* `processPDF`       (server.cjs lines 99-121).

JavaScript strings are sequences of UTF-16 code units; we embed them as
`List Nat` (each element one code unit).  The regex character classes
`\s` and `\w` and the `toLowerCase` mapping used by the code are modelled
on code-unit values, matching ECMAScript semantics.  The frequency object
`{}` is modelled together with its `Object.prototype` inheritance: the
lowercased tokens `constructor` and `__proto__` collide with inherited
properties, so the former stores a string concatenation instead of a count
and the latter never creates an own property.
-/

/-- A JavaScript string: a list of UTF-16 code units. -/
abbrev JStr := List Nat

/-- Convert a Lean string literal into its code-unit list (for concrete tests). -/
def str (s : String) : JStr := s.data.map Char.toNat

/-- ECMAScript `\s` (WhiteSpace ∪ LineTerminator) as code-unit values. -/
def isJsWs (c : Nat) : Bool :=
  c ∈ [9, 10, 11, 12, 13, 32, 160, 0x1680,
       0x2000, 0x2001, 0x2002, 0x2003, 0x2004, 0x2005, 0x2006, 0x2007,
       0x2008, 0x2009, 0x200A, 0x2028, 0x2029, 0x202F, 0x205F, 0x3000, 0xFEFF]

/-- ECMAScript `\w`: `[A-Za-z0-9_]`. -/
def isWordChar (c : Nat) : Bool :=
  (97 ≤ c && c ≤ 122) || (65 ≤ c && c ≤ 90) || (48 ≤ c && c ≤ 57) || c == 95

/-- The sentence-terminator class `[.!?]` of `calculateStats`. -/
def isSentEnd (c : Nat) : Bool :=
  c == 46 || c == 33 || c == 63

/-- `String.prototype.toLowerCase` restricted to the code points the analysis
can observe (ASCII letters; other units are unchanged by the mapping as far
as the `\w` tokenizer is concerned). -/
def jsToLower (c : Nat) : Nat :=
  if 65 ≤ c && c ≤ 90 then c + 32 else c

/-- `String.prototype.trim`: strip leading and trailing `\s` units. -/
def jsTrim (s : JStr) : JStr :=
  ((s.dropWhile isJsWs).reverse.dropWhile isJsWs).reverse

/-- Prepend a unit to the first field of a field list. -/
def consHead (c : Nat) : List JStr → List JStr
  | [] => [[c]]
  | t :: ts => (c :: t) :: ts

/-- Worker for `jsSplitRuns`: `prevSep` records whether the previous unit
belonged to a separator run (so a further separator extends the run instead
of opening a new empty field). -/
def splitAux (p : Nat → Bool) : Bool → JStr → List JStr
  | _, [] => [[]]
  | prevSep, c :: cs =>
    if p c then
      if prevSep then splitAux p true cs
      else [] :: splitAux p true cs
    else
      consHead c (splitAux p false cs)

/-- `s.split(re)` where `re` matches maximal nonempty runs of units satisfying
`p` (this is `/\s+/` for `p = isJsWs`, and splitting on maximal non-word runs
gives the `\b\w+\b` token list after discarding empty fields).
JavaScript yields an empty field before a leading match, after a trailing
match, and `[""]` on the empty string. -/
def jsSplitRuns (p : Nat → Bool) (l : JStr) : List JStr :=
  splitAux p false l

/-- The stats record returned by `calculateStats` (server.cjs lines 59-65).
`avgWordLength` is a JavaScript number; we model the values arising here
(finite averages, with `NaN || 0` collapsing to `0`) as rationals. -/
structure Stats where
  wordCount : Nat
  charCount : Nat
  charCountWithoutSpaces : Nat
  sentenceCount : Nat
  avgWordLength : ℚ
deriving Repr, DecidableEq

/-- `calculateStats` (server.cjs lines 54-66).

`text.split(/\s+/).filter(w => w.length > 0)` is `jsSplitRuns isJsWs`
followed by discarding empty fields; `text.split(/[.!?]+/).filter(s => s.trim())`
keeps the fields whose trim is a nonempty (truthy) string;
`text.replace(/\s/g, '').length` counts the non-whitespace units.
For zero words the source computes `0/0 || 0`, i.e. `NaN || 0 = 0`. -/
def calculateStats (text : JStr) : Stats :=
  let words := (jsSplitRuns isJsWs text).filter (fun w => decide (0 < w.length))
  let sentences :=
    (jsSplitRuns isSentEnd text).filter (fun s => decide (0 < (jsTrim s).length))
  let charCountWithoutSpaces := (text.filter (fun c => !(isJsWs c))).length
  { wordCount := words.length
    charCount := text.length
    charCountWithoutSpaces := charCountWithoutSpaces
    sentenceCount := sentences.length
    avgWordLength :=
      if words.length = 0 then 0
      else ((words.map List.length).sum : ℚ) / (words.length : ℚ) }

/-- The stop-word set of `calculateWordFrequency` (server.cjs line 76). -/
def stopWords : List JStr :=
  [str "the", str "and", str "is", str "in", str "to", str "of"]

/-- `text.match(/\b\w+\b/g) || []`: the maximal runs of `\w` units. -/
def wordTokens (text : JStr) : List JStr :=
  (jsSplitRuns (fun c => !(isWordChar c)) text).filter (fun w => decide (0 < w.length))

/-- A value stored in the frequency object.  Counts are numbers, but the
object literal `{}` inherits from `Object.prototype`, and the lowercased
`\w` token `constructor` collides with the inherited
`Object.prototype.constructor` function: the read in
`(frequency[word] || 0) + 1` then yields that function (truthy), and `+ 1`
performs string concatenation, so such entries hold strings. -/
inductive JsVal where
  | num : Nat → JsVal
  | str : JStr → JsVal
deriving Repr, DecidableEq

instance (n : Nat) : OfNat JsVal n := ⟨JsVal.num n⟩

/-- `ToString(Object.prototype.constructor)`, the source text of the native
`Object` function.  ECMAScript leaves this text implementation-defined; the
V8/JSC form is used as the representative.  No theorem below depends on its
content, only on the value being a string. -/
def objectProtoFnSrc : JStr := str "function Object() \x7b [native code] \x7d"

/-- One step of `(frequency[word] || 0) + 1` on an existing own value: a
number is incremented; a string (truthy) passes `||` unchanged and `+ 1`
concatenates the string `"1"`. -/
def jsPlusOne : JsVal → JsVal
  | .num n => .num (n + 1)
  | .str s => .str (s ++ str "1")

/-- `(frequency[word] || 0) + 1` when no own property exists yet: a plain
word reads `undefined` (so `|| 0` gives `0` and the value is `1`), while
`constructor` reads the inherited `Object` function and `+ 1` concatenates
its source text with `"1"`. -/
def freshVal (w : JStr) : JsVal :=
  if w = str "constructor" then .str (objectProtoFnSrc ++ str "1") else .num 1

/-- The own-property update of `frequency[word] = (frequency[word] || 0) + 1`
on the object used as a dictionary: an insertion-ordered association list,
bumping an existing key in place and appending a fresh key at the end. -/
def bump : List (JStr × JsVal) → JStr → List (JStr × JsVal)
  | [], w => [(w, freshVal w)]
  | (k, v) :: rest, w =>
    if k = w then (k, jsPlusOne v) :: rest else (k, v) :: bump rest w

/-- The complete assignment semantics: writing `frequency["__proto__"]`
invokes the inherited `Object.prototype.__proto__` setter, which ignores a
non-object value — no own property is ever created for that word. -/
def bumpKey (m : List (JStr × JsVal)) (w : JStr) : List (JStr × JsVal) :=
  if w = str "__proto__" then m else bump m w

/-- The numeric value of a digit string. -/
def decValue (w : JStr) : Nat :=
  w.foldl (fun n c => 10 * n + (c - 48)) 0

/-- Whether a property key is an ECMAScript array index: the canonical decimal
numeral of some `n < 2^32 - 1` (all digits, no leading zero except `"0"`). -/
def isArrayIdxKey (w : JStr) : Bool :=
  !w.isEmpty && w.all (fun c => 48 ≤ c && c ≤ 57)
    && (w == [48] || w.head? != some 48)
    && decide (decValue w < 2 ^ 32 - 1)

/-- Insert into a list sorted ascending by `decValue` of the key. -/
def insertByValAsc (x : JStr × JsVal) : List (JStr × JsVal) → List (JStr × JsVal)
  | [] => [x]
  | y :: ys =>
    if decValue y.1 < decValue x.1 then y :: insertByValAsc x ys
    else x :: y :: ys

/-- `Object.entries(frequency)`: own enumerable string keys, array-index keys
first in ascending numeric order, then the remaining keys in insertion order
(ECMAScript `OrdinaryOwnPropertyKeys`). -/
def objectEntries (m : List (JStr × JsVal)) : List (JStr × JsVal) :=
  (m.filter (fun e => isArrayIdxKey e.1)).foldr insertByValAsc []
    ++ m.filter (fun e => !(isArrayIdxKey e.1))

/-- Whether the comparator `(a, b) => b[1] - a[1]` reports the first value
strictly below the second: a positive difference requires two numeric
counts; any pair involving a string value yields `NaN`, which
`CompareArrayElements` treats as `+0` (a tie). -/
def valLt : JsVal → JsVal → Bool
  | .num a, .num b => decide (a < b)
  | _, _ => false

/-- Insert after every entry of strictly greater count and before every
other entry; realises the stable `sort((a, b) => b[1] - a[1])`. -/
def insertByCountDesc (x : JStr × JsVal) :
    List (JStr × JsVal) → List (JStr × JsVal)
  | [] => [x]
  | y :: ys =>
    if valLt x.2 y.2 then y :: insertByCountDesc x ys
    else x :: y :: ys

/-- The sort `entries.sort((a, b) => b[1] - a[1])`.  With all-numeric values
the comparator is consistent and ECMAScript fixes the result to the unique
stable count-descending ordering, realised here by stable insertion.  When a
string value (a `constructor` entry) coexists with distinct numeric counts
the comparator is inconsistent and the order is implementation-defined; the
model then commits to the stable-insertion result, and no theorem below
constrains the order in that regime. -/
def sortByCountDesc (l : List (JStr × JsVal)) : List (JStr × JsVal) :=
  l.foldr insertByCountDesc []

/-- `calculateWordFrequency` (server.cjs lines 75-89). -/
def calculateWordFrequency (text : JStr) : List (JStr × JsVal) :=
  let words := wordTokens (text.map jsToLower)
  let frequency :=
    words.foldl (fun acc w => if w ∈ stopWords then acc else bumpKey acc w) []
  (sortByCountDesc (objectEntries frequency)).take 20

/-- Index of the first occurrence of a word in a token list (list length if
absent). -/
def firstIdx (w : JStr) : List JStr → Nat
  | [] => 0
  | t :: ts => if t = w then 0 else firstIdx w ts + 1

/-- The object resolved by `pdfParse(buffer)`; the code reads only its
`text` field. -/
structure PdfParsed where
  text : JStr
deriving Repr, DecidableEq

/-- The message prepended by the `catch` block of `processPDF`
(server.cjs line 119): `` `Processing failed: ${error.message}` ``. -/
def procFailedMsg : JStr := str "Processing failed: "

/-- The sequential OCR loop of `processPDF` (server.cjs lines 109-115):
`fullText += text + '\n'` for each page, propagating a thrown error. -/
def ocrLoop {Page : Type} (recognize : Page → Except JStr JStr) :
    List Page → JStr → Except JStr JStr
  | [], fullText => .ok fullText
  | page :: rest, fullText =>
    match recognize page with
    | .error e => .error e
    | .ok text => ocrLoop recognize rest (fullText ++ text ++ [10])

/-- The OCR fallback path of `processPDF` (server.cjs lines 106-117):
`fromBuffer` renders the pages, then the loop recognizes each in order. -/
def ocrFallback {Buffer Page : Type} (fromBuffer : Buffer → Except JStr (List Page))
    (recognize : Page → Except JStr JStr) (buffer : Buffer) : Except JStr JStr :=
  match fromBuffer buffer with
  | .error e => .error e
  | .ok pages => ocrLoop recognize pages []

/-- The `try` body of `processPDF` (server.cjs lines 100-117): direct parse,
fast path when the trimmed text has length `> 50`, OCR fallback otherwise. -/
def processPDFTry {Buffer Page : Type} (pdfParse : Buffer → Except JStr PdfParsed)
    (fromBuffer : Buffer → Except JStr (List Page))
    (recognize : Page → Except JStr JStr) (buffer : Buffer) : Except JStr JStr :=
  match pdfParse buffer with
  | .error e => .error e
  | .ok pdfText =>
    if 50 < (jsTrim pdfText.text).length then .ok pdfText.text
    else ocrFallback fromBuffer recognize buffer

/-- The `catch` block of `processPDF` (server.cjs lines 118-120): rethrow any
error with the `Processing failed: ` message prefix; a successful result
passes through. -/
def catchWrap (r : Except JStr JStr) : Except JStr JStr :=
  match r with
  | .ok t => .ok t
  | .error e => .error (procFailedMsg ++ e)

/-- `processPDF` (server.cjs lines 99-121), parameterized by its effectful
collaborators `pdfParse`, `fromBuffer` (pdf-to-img) and `recognize`
(Tesseract). -/
def processPDF {Buffer Page : Type} (pdfParse : Buffer → Except JStr PdfParsed)
    (fromBuffer : Buffer → Except JStr (List Page))
    (recognize : Page → Except JStr JStr) (buffer : Buffer) : Except JStr JStr :=
  catchWrap (processPDFTry pdfParse fromBuffer recognize buffer)

/-! ### Helper lemmas about the extraction model -/

/-- When every page is recognized successfully, the OCR loop returns the
accumulated text followed by each page's text and a newline, in page order. -/
theorem ocrLoop_ok {Page : Type} (recognize : Page → Except JStr JStr) :
    ∀ (pages : List Page) (texts : List JStr) (acc : JStr),
      pages.map recognize = texts.map Except.ok →
      ocrLoop recognize pages acc
        = .ok (acc ++ (texts.map (fun t => t ++ [10])).flatten) := by
  intro pages
  induction pages with
  | nil =>
    intro texts acc h
    cases texts with
    | nil => simp [ocrLoop]
    | cons t ts => simp at h
  | cons p ps ih =>
    intro texts acc h
    cases texts with
    | nil => simp at h
    | cons t ts =>
      simp only [List.map_cons, List.cons.injEq] at h
      obtain ⟨h1, h2⟩ := h
      simp only [ocrLoop, h1]
      rw [ih ts _ h2]
      simp [List.flatten, List.append_assoc]

/-! ### Properties of run-splitting -/

/-- The field list is never empty. -/
theorem splitAux_ne_nil (p : Nat → Bool) (b : Bool) (l : JStr) :
    splitAux p b l ≠ [] := by
  induction l generalizing b with
  | nil => simp [splitAux]
  | cons c cs ih =>
    simp only [splitAux]
    split
    · split
      · exact ih true
      · simp
    · unfold consHead
      split <;> simp

/-- Every unit of every field fails the separator predicate and occurs in
the input. -/
theorem splitAux_mem_chars (p : Nat → Bool) (l : JStr) :
    ∀ (b : Bool), ∀ t ∈ splitAux p b l, ∀ c ∈ t, p c = false ∧ c ∈ l := by
  induction l with
  | nil =>
    intro b t ht c hc
    simp [splitAux] at ht
    subst ht
    cases hc
  | cons a cs ih =>
    intro b t ht c hc
    simp only [splitAux] at ht
    split at ht
    · rename_i hpa
      split at ht
      · have := ih true t ht c hc
        exact ⟨this.1, List.mem_cons_of_mem a this.2⟩
      · rcases List.mem_cons.mp ht with rfl | h
        · cases hc
        · have := ih true t h c hc
          exact ⟨this.1, List.mem_cons_of_mem a this.2⟩
    · rename_i hpa
      have hpa' : p a = false := by simpa using hpa
      revert ht
      unfold consHead
      split
      · rename_i hr
        intro ht
        rcases List.mem_cons.mp ht with rfl | h
        · rcases List.mem_singleton.mp hc with rfl
          exact ⟨hpa', List.mem_cons_self _ cs⟩
        · cases h
      · rename_i t0 ts hr
        intro ht
        rcases List.mem_cons.mp ht with rfl | h
        · rcases List.mem_cons.mp hc with rfl | hc'
          · exact ⟨hpa', List.mem_cons_self c cs⟩
          · have := ih false t0 (by rw [hr]; exact List.mem_cons_self _ _) c hc'
            exact ⟨this.1, List.mem_cons_of_mem a this.2⟩
        · have := ih false t (by rw [hr]; exact List.mem_cons_of_mem _ h) c hc
          exact ⟨this.1, List.mem_cons_of_mem a this.2⟩

/-- The fields together hold exactly the non-separator units of the input. -/
theorem splitAux_sum_length (p : Nat → Bool) (l : JStr) :
    ∀ b, ((splitAux p b l).map List.length).sum
      = (l.filter (fun c => !(p c))).length := by
  induction l with
  | nil => intro b; simp [splitAux]
  | cons a cs ih =>
    intro b
    simp only [splitAux]
    split
    · rename_i hpa
      rw [List.filter_cons_of_neg (by simp [hpa])]
      split
      · exact ih true
      · simpa using ih true
    · rename_i hpa
      have hpa' : p a = false := by simpa using hpa
      rw [List.filter_cons_of_pos (by simp [hpa'])]
      rcases hr : splitAux p false cs with _ | ⟨t0, ts⟩
      · exact absurd hr (splitAux_ne_nil p false cs)
      · have := ih false
        rw [hr] at this
        simp only [consHead, List.map_cons, List.sum_cons, List.length_cons]
          at this ⊢
        omega

/-- Dropping the zero-length fields does not change the total field length. -/
theorem sum_length_filter_pos (L : List JStr) :
    ((L.filter (fun w => decide (0 < w.length))).map List.length).sum
      = (L.map List.length).sum := by
  induction L with
  | nil => rfl
  | cons w ws ih =>
    by_cases h : 0 < w.length
    · rw [List.filter_cons_of_pos (by simpa using h)]
      simpa using ih
    · have h0 : w.length = 0 := by omega
      rw [List.filter_cons_of_neg (by simpa using h)]
      simp [ih, h0]

/-- A list of nonempty strings is no longer than its total length. -/
theorem length_le_sum_of_pos (L : List JStr) (h : ∀ w ∈ L, 0 < w.length) :
    L.length ≤ (L.map List.length).sum := by
  induction L with
  | nil => simp
  | cons w ws ih =>
    have h1 := h w (List.mem_cons_self w ws)
    have h2 := ih (fun u hu => h u (List.mem_cons_of_mem w hu))
    simp only [List.length_cons, List.map_cons, List.sum_cons]
    omega

/-! ### The claims -/

/-- C1: if the direct structured parse yields text of trimmed length `> 50`,
`processPDF` returns that text and the result does not depend on the OCR
collaborators (no OCR is invoked); if the trimmed length is `≤ 50`, the
result is exactly the OCR fallback path's result (under the catch wrapper). -/
theorem claim_C1_fastpath_gate {Buffer Page : Type}
    (pdfParse : Buffer → Except JStr PdfParsed)
    (buffer : Buffer) (r : PdfParsed)
    (hp : pdfParse buffer = .ok r) :
    (50 < (jsTrim r.text).length →
      ∀ (fromBuffer : Buffer → Except JStr (List Page))
        (recognize : Page → Except JStr JStr),
        processPDF pdfParse fromBuffer recognize buffer = .ok r.text) ∧
    ((jsTrim r.text).length ≤ 50 →
      ∀ (fromBuffer : Buffer → Except JStr (List Page))
        (recognize : Page → Except JStr JStr),
        processPDF pdfParse fromBuffer recognize buffer
          = catchWrap (ocrFallback fromBuffer recognize buffer)) := by
  constructor
  · intro h fb rec
    simp [processPDF, processPDFTry, hp, if_pos h, catchWrap]
  · intro h fb rec
    simp [processPDF, processPDFTry, hp, if_neg (Nat.not_lt.mpr h)]

/-- C1 witness: a 51-character parse takes the fast path at a concrete
instantiation; a short parse takes the OCR fallback. -/
theorem claim_C1_fastpath_gate_witness :
    (@processPDF Nat Nat
        (fun _ => .ok ⟨List.replicate 51 97⟩)
        (fun _ => .ok [0]) (fun _ => .error (str "ocr down")) 0
      = .ok (List.replicate 51 97)) ∧
    (@processPDF Nat Nat
        (fun _ => .ok ⟨str "hi"⟩)
        (fun _ => .ok [0]) (fun _ => .error (str "ocr down")) 0
      = catchWrap (ocrFallback (fun _ => .ok [0])
          (fun _ => .error (str "ocr down")) 0)) := by
  constructor
  · exact (@claim_C1_fastpath_gate Nat Nat
      (fun _ => .ok ⟨List.replicate 51 97⟩) 0 ⟨List.replicate 51 97⟩ rfl).1
      (by decide) _ _
  · exact (@claim_C1_fastpath_gate Nat Nat
      (fun _ => .ok ⟨str "hi"⟩) 0 ⟨str "hi"⟩ rfl).2
      (by decide) _ _

/-- C3: with zero whitespace-delimited words `calculateStats` returns
`avgWordLength = 0` (the source's `NaN || 0` guard); in particular every
text consisting only of whitespace (the empty string included) has zero
words and a zero average. -/
theorem claim_C3_avg_zero (text : JStr) :
    ((calculateStats text).wordCount = 0 →
      (calculateStats text).avgWordLength = 0) ∧
    ((∀ c ∈ text, isJsWs c = true) →
      (calculateStats text).wordCount = 0 ∧
      (calculateStats text).avgWordLength = 0) := by
  have hmain : (calculateStats text).wordCount = 0 →
      (calculateStats text).avgWordLength = 0 := by
    intro h
    simp only [calculateStats] at h ⊢
    rw [if_pos h]
  refine ⟨hmain, fun hws => ?_⟩
  have hw : (calculateStats text).wordCount = 0 := by
    simp only [calculateStats]
    rw [List.length_eq_zero, List.filter_eq_nil_iff]
    intro w hwmem
    simp only [decide_eq_true_eq, not_lt, Nat.le_zero, List.length_eq_zero]
    by_contra hne
    obtain ⟨c, hc⟩ := List.exists_mem_of_ne_nil w hne
    have hchar := splitAux_mem_chars isJsWs text false w hwmem c hc
    have htrue := hws c hchar.2
    rw [hchar.1] at htrue
    simp at htrue
  exact ⟨hw, hmain hw⟩

/-- C3 witness: the whitespace-only text `" "` instantiates both parts. -/
theorem claim_C3_avg_zero_witness :
    (calculateStats (str " ")).avgWordLength = 0 ∧
    ((calculateStats (str " ")).wordCount = 0 ∧
      (calculateStats (str " ")).avgWordLength = 0) :=
  ⟨(claim_C3_avg_zero (str " ")).1 (by decide),
   (claim_C3_avg_zero (str " ")).2 (by decide)⟩

/-- C4: any failure inside the extraction body surfaces as a single error
whose message is the `Processing failed: ` prefix followed by the underlying
message, and no text is returned. -/
theorem claim_C4_error_wrap {Buffer Page : Type}
    (pdfParse : Buffer → Except JStr PdfParsed)
    (fromBuffer : Buffer → Except JStr (List Page))
    (recognize : Page → Except JStr JStr) (buffer : Buffer) (e : JStr)
    (h : processPDFTry pdfParse fromBuffer recognize buffer = .error e) :
    processPDF pdfParse fromBuffer recognize buffer
      = .error (procFailedMsg ++ e) ∧
    ∀ t, processPDF pdfParse fromBuffer recognize buffer ≠ .ok t := by
  refine ⟨by simp [processPDF, h, catchWrap], ?_⟩
  intro t
  simp [processPDF, h, catchWrap]

/-- C4 witness: a failing direct parse is wrapped with the prefix. -/
theorem claim_C4_error_wrap_witness :
    @processPDF Nat Nat
        (fun _ => .error (str "bad xref")) (fun _ => .ok [])
        (fun _ => .error []) 0
      = .error (procFailedMsg ++ str "bad xref") ∧
    ∀ t, @processPDF Nat Nat
        (fun _ => .error (str "bad xref")) (fun _ => .ok [])
        (fun _ => .error []) 0 ≠ .ok t :=
  claim_C4_error_wrap (fun _ => .error (str "bad xref")) (fun _ => .ok [])
    (fun _ => .error []) 0 (str "bad xref") rfl

/-- C5: the analysis functions are total (they are Lean functions), and on
the empty string they return the all-zero stats record and the empty
frequency list. -/
theorem claim_C5_total_empty :
    calculateStats (str "") = ⟨0, 0, 0, 0, 0⟩ ∧
    calculateWordFrequency (str "") = [] := by
  constructor <;> decide

/-- C6: on the OCR fallback path (short direct parse), when every page is
recognized successfully, the extracted text is the concatenation in page
order of each page's recognized text followed by a newline (code unit 10). -/
theorem claim_C6_page_order {Buffer Page : Type}
    (pdfParse : Buffer → Except JStr PdfParsed)
    (fromBuffer : Buffer → Except JStr (List Page))
    (recognize : Page → Except JStr JStr)
    (buffer : Buffer) (r : PdfParsed) (pages : List Page) (texts : List JStr)
    (hp : pdfParse buffer = .ok r)
    (hshort : (jsTrim r.text).length ≤ 50)
    (hpages : fromBuffer buffer = .ok pages)
    (hrec : pages.map recognize = texts.map Except.ok) :
    processPDF pdfParse fromBuffer recognize buffer
      = .ok ((texts.map (fun t => t ++ [10])).flatten) := by
  simp only [processPDF, processPDFTry, hp]
  rw [if_neg (Nat.not_lt.mpr hshort)]
  simp only [ocrFallback, hpages]
  rw [ocrLoop_ok recognize pages texts [] hrec]
  simp [catchWrap]

/-- C6 witness: a concrete three-page document whose pages recognize to
`[0]`, `[1]`, `[2]` yields `[0,10,1,10,2,10]`. -/
theorem claim_C6_page_order_witness :
    @processPDF Nat Nat
        (fun _ => .ok ⟨str "scan"⟩) (fun _ => .ok [0, 1, 2])
        (fun p => .ok [p]) 0
      = .ok (([[0], [1], [2]].map (fun t => t ++ [10])).flatten) :=
  claim_C6_page_order (fun _ => .ok ⟨str "scan"⟩) (fun _ => .ok [0, 1, 2])
    (fun p => .ok [p]) 0 ⟨str "scan"⟩ [0, 1, 2] [[0], [1], [2]]
    rfl (by decide) rfl rfl

/-- C8: the worked example `"The quick fox. The fox jumps!"`: six words, two
sentences, frequency list `[("fox", 2), ("quick", 1), ("jumps", 1)]` with
`"the"` absent. -/
theorem claim_C8_example :
    (calculateStats (str "The quick fox. The fox jumps!")).wordCount = 6 ∧
    (calculateStats (str "The quick fox. The fox jumps!")).sentenceCount = 2 ∧
    calculateWordFrequency (str "The quick fox. The fox jumps!")
      = [(str "fox", 2), (str "quick", 1), (str "jumps", 1)] ∧
    ∀ e ∈ calculateWordFrequency (str "The quick fox. The fox jumps!"),
      e.1 ≠ str "the" := by
  refine ⟨by decide, by decide, by decide, by decide⟩

/-- C9: both analysis functions are deterministic — two invocations on the
same text give the same results. -/
theorem claim_C9_deterministic (text : JStr) :
    calculateStats text = calculateStats text ∧
    calculateWordFrequency text = calculateWordFrequency text :=
  ⟨rfl, rfl⟩


/-- C10: for every text, `wordCount ≤ charCountWithoutSpaces ≤ charCount`. -/
theorem claim_C10_count_bounds (text : JStr) :
    (calculateStats text).wordCount ≤ (calculateStats text).charCountWithoutSpaces ∧
    (calculateStats text).charCountWithoutSpaces ≤ (calculateStats text).charCount := by
  simp only [calculateStats]
  constructor
  · have hpos : ∀ w ∈ (jsSplitRuns isJsWs text).filter
        (fun w => decide (0 < w.length)), 0 < w.length := by
      intro w hw
      have := List.of_mem_filter hw
      simpa using this
    calc ((jsSplitRuns isJsWs text).filter (fun w => decide (0 < w.length))).length
        ≤ (((jsSplitRuns isJsWs text).filter
            (fun w => decide (0 < w.length))).map List.length).sum :=
          length_le_sum_of_pos _ hpos
      _ = ((jsSplitRuns isJsWs text).map List.length).sum :=
          sum_length_filter_pos _
      _ = (text.filter (fun c => !(isJsWs c))).length :=
          splitAux_sum_length isJsWs text false
  · exact List.length_filter_le _ _

/-! ### Properties of the frequency accumulation and sorting -/

/-- `bump` keeps the key list unchanged when the key exists and appends the
new key otherwise. -/
theorem bump_keys (acc : List (JStr × JsVal)) (w : JStr) :
    (bump acc w).map Prod.fst
      = if w ∈ acc.map Prod.fst then acc.map Prod.fst
        else acc.map Prod.fst ++ [w] := by
  induction acc with
  | nil => simp [bump]
  | cons e rest ih =>
    obtain ⟨k, v⟩ := e
    by_cases h : k = w
    · subst h
      simp [bump]
    · simp only [bump, if_neg h, List.map_cons]
      by_cases hm : w ∈ rest.map Prod.fst
      · rw [ih]
        simp [hm, Ne.symm h]
      · rw [ih]
        simp [hm, Ne.symm h]

/-- `bump` with a word other than `constructor` keeps every stored value
numeric. -/
theorem bump_val_num (acc : List (JStr × JsVal)) (w : JStr)
    (hacc : ∀ e ∈ acc, ∃ n : Nat, e.2 = JsVal.num n)
    (hw : w ≠ str "constructor") :
    ∀ e ∈ bump acc w, ∃ n : Nat, e.2 = JsVal.num n := by
  induction acc with
  | nil =>
    intro e he
    simp only [bump, List.mem_singleton] at he
    subst he
    exact ⟨1, by simp [freshVal, hw]⟩
  | cons kv rest ih =>
    obtain ⟨k, v⟩ := kv
    intro e he
    by_cases hk : k = w
    · subst hk
      simp only [bump, if_pos rfl] at he
      rcases List.mem_cons.mp he with rfl | h
      · obtain ⟨n, hn⟩ := hacc (k, v) (List.mem_cons_self _ _)
        simp only at hn
        exact ⟨n + 1, by simp [jsPlusOne, hn]⟩
      · exact hacc e (List.mem_cons_of_mem _ h)
    · simp only [bump, if_neg hk] at he
      rcases List.mem_cons.mp he with rfl | h
      · exact hacc _ (List.mem_cons_self _ _)
      · exact ih (fun e' he' => hacc e' (List.mem_cons_of_mem _ he')) e h

/-- The accumulation loop keeps every value numeric when the token list does
not contain `constructor`. -/
theorem foldl_val_num (ws : List JStr) :
    ∀ (acc : List (JStr × JsVal)),
      (∀ e ∈ acc, ∃ n : Nat, e.2 = JsVal.num n) →
      str "constructor" ∉ ws →
      ∀ e ∈ ws.foldl (fun acc w => if w ∈ stopWords then acc else bumpKey acc w)
        acc, ∃ n : Nat, e.2 = JsVal.num n := by
  induction ws with
  | nil =>
    intro acc hacc _ e he
    exact hacc e he
  | cons w ws ih =>
    intro acc hacc hcon e he
    rw [List.foldl_cons] at he
    have hw : w ≠ str "constructor" := by
      intro hh
      exact hcon (hh ▸ List.mem_cons_self _ _)
    have hcon' : str "constructor" ∉ ws :=
      fun hh => hcon (List.mem_cons_of_mem _ hh)
    by_cases hs : w ∈ stopWords
    · rw [if_pos hs] at he
      exact ih acc hacc hcon' e he
    · rw [if_neg hs] at he
      by_cases hp : w = str "__proto__"
      · simp only [bumpKey, if_pos hp] at he
        exact ih acc hacc hcon' e he
      · simp only [bumpKey, if_neg hp] at he
        exact ih (bump acc w) (bump_val_num acc w hacc hw) hcon' e he

/-- Every key produced by the accumulation loop is a non-stop-word token of
the input word list (or was already a key of the accumulator). -/
theorem mem_keys_foldl (ws : List JStr) :
    ∀ (acc : List (JStr × JsVal)) (k : JStr),
      k ∈ ((ws.foldl (fun acc w => if w ∈ stopWords then acc else bumpKey acc w)
        acc).map Prod.fst) →
      k ∈ acc.map Prod.fst ∨ (k ∈ ws ∧ k ∉ stopWords) := by
  induction ws with
  | nil =>
    intro acc k h
    exact Or.inl h
  | cons w ws ih =>
    intro acc k h
    rw [List.foldl_cons] at h
    by_cases hs : w ∈ stopWords
    · rw [if_pos hs] at h
      rcases ih acc k h with h1 | h2
      · exact Or.inl h1
      · exact Or.inr ⟨List.mem_cons_of_mem w h2.1, h2.2⟩
    · rw [if_neg hs] at h
      by_cases hp : w = str "__proto__"
      · simp only [bumpKey, if_pos hp] at h
        rcases ih acc k h with h1 | h2
        · exact Or.inl h1
        · exact Or.inr ⟨List.mem_cons_of_mem w h2.1, h2.2⟩
      · simp only [bumpKey, if_neg hp] at h
        rcases ih (bump acc w) k h with h1 | h2
        · rw [bump_keys] at h1
          by_cases hm : w ∈ acc.map Prod.fst
          · rw [if_pos hm] at h1
            exact Or.inl h1
          · rw [if_neg hm] at h1
            rcases List.mem_append.mp h1 with h1a | h1b
            · exact Or.inl h1a
            · rcases List.mem_singleton.mp h1b with rfl
              exact Or.inr ⟨List.mem_cons_self _ _, hs⟩
        · exact Or.inr ⟨List.mem_cons_of_mem w h2.1, h2.2⟩

/-- Membership through `insertByValAsc`. -/
theorem mem_insertByValAsc {x y : JStr × JsVal} {l : List (JStr × JsVal)} :
    y ∈ insertByValAsc x l ↔ y = x ∨ y ∈ l := by
  induction l with
  | nil => simp [insertByValAsc]
  | cons z zs ih =>
    simp only [insertByValAsc]
    split
    · rw [List.mem_cons, ih, List.mem_cons]
      tauto
    · rw [List.mem_cons, List.mem_cons]

/-- Membership through `insertByCountDesc`. -/
theorem mem_insertByCountDesc {x y : JStr × JsVal} {l : List (JStr × JsVal)} :
    y ∈ insertByCountDesc x l ↔ y = x ∨ y ∈ l := by
  induction l with
  | nil => simp [insertByCountDesc]
  | cons z zs ih =>
    simp only [insertByCountDesc]
    split
    · rw [List.mem_cons, ih, List.mem_cons]
      tauto
    · rw [List.mem_cons, List.mem_cons]

/-- Membership through `sortByCountDesc`. -/
theorem mem_sortByCountDesc {y : JStr × JsVal} {l : List (JStr × JsVal)} :
    y ∈ sortByCountDesc l ↔ y ∈ l := by
  induction l with
  | nil => simp [sortByCountDesc]
  | cons z zs ih =>
    simp only [sortByCountDesc, List.foldr_cons] at ih ⊢
    rw [mem_insertByCountDesc, ih, List.mem_cons]

/-- `objectEntries` only reorders: every emitted entry is an entry of the
underlying map. -/
theorem mem_objectEntries {y : JStr × JsVal} {m : List (JStr × JsVal)}
    (h : y ∈ objectEntries m) : y ∈ m := by
  unfold objectEntries at h
  rcases List.mem_append.mp h with h1 | h2
  · have : ∀ (l : List (JStr × JsVal)), y ∈ l.foldr insertByValAsc [] → y ∈ l := by
      intro l
      induction l with
      | nil => intro h'; cases h'
      | cons z zs ih =>
        intro h'
        rw [List.foldr_cons] at h'
        rcases mem_insertByValAsc.mp h' with rfl | h''
        · exact List.mem_cons_self _ _
        · exact List.mem_cons_of_mem _ (ih h'')
    exact List.mem_of_mem_filter (this _ h1)
  · exact List.mem_of_mem_filter h2

/-- Inserting a numeric-valued entry into a numerically sorted list of
numeric-valued entries keeps it sorted by count non-increasing. -/
theorem pairwise_insertByCountDesc (x : JStr × JsVal) (l : List (JStr × JsVal))
    (hx : ∃ n : Nat, x.2 = JsVal.num n)
    (hl : ∀ e ∈ l, ∃ n : Nat, e.2 = JsVal.num n)
    (h : l.Pairwise (fun a b => ∀ u v : Nat,
      a.2 = JsVal.num u → b.2 = JsVal.num v → v ≤ u)) :
    (insertByCountDesc x l).Pairwise (fun a b => ∀ u v : Nat,
      a.2 = JsVal.num u → b.2 = JsVal.num v → v ≤ u) := by
  induction l with
  | nil => simp [insertByCountDesc]
  | cons y ys ih =>
    rw [List.pairwise_cons] at h
    obtain ⟨hy, hys⟩ := h
    obtain ⟨a, ha⟩ := hx
    obtain ⟨b, hb⟩ := hl y (List.mem_cons_self _ _)
    simp only [insertByCountDesc]
    split
    · rename_i hlt
      have hab : a < b := by
        rw [ha, hb] at hlt
        simpa [valLt] using hlt
      rw [List.pairwise_cons]
      refine ⟨?_, ih (fun e he => hl e (List.mem_cons_of_mem _ he)) hys⟩
      intro z hz
      rcases mem_insertByCountDesc.mp hz with rfl | hz'
      · intro u v hu hv
        rw [hb] at hu
        rw [ha] at hv
        simp only [JsVal.num.injEq] at hu hv
        omega
      · exact hy z hz'
    · rename_i hge
      have hba : b ≤ a := by
        rw [ha, hb] at hge
        simp only [valLt, decide_eq_true_eq] at hge
        omega
      rw [List.pairwise_cons]
      refine ⟨?_, List.pairwise_cons.mpr ⟨hy, hys⟩⟩
      intro z hz
      rcases List.mem_cons.mp hz with rfl | hz'
      · intro u v hu hv
        rw [ha] at hu
        rw [hb] at hv
        simp only [JsVal.num.injEq] at hu hv
        omega
      · intro u v hu hv
        obtain ⟨c, hc⟩ := hl z (List.mem_cons_of_mem _ hz')
        have h1 := hy z hz' b c hb hc
        rw [ha] at hu
        rw [hc] at hv
        simp only [JsVal.num.injEq] at hu hv
        omega

/-- The sort yields a count-non-increasing list whenever every value is
numeric (the consistent-comparator regime). -/
theorem pairwise_sortByCountDesc (l : List (JStr × JsVal))
    (hl : ∀ e ∈ l, ∃ n : Nat, e.2 = JsVal.num n) :
    (sortByCountDesc l).Pairwise (fun a b => ∀ u v : Nat,
      a.2 = JsVal.num u → b.2 = JsVal.num v → v ≤ u) := by
  induction l with
  | nil => simp [sortByCountDesc]
  | cons x xs ih =>
    exact pairwise_insertByCountDesc x _
      (hl x (List.mem_cons_self _ _))
      (fun e he => hl e (List.mem_cons_of_mem _ (mem_sortByCountDesc.mp he)))
      (ih (fun e he => hl e (List.mem_cons_of_mem _ he)))

/-- Shape of the regex word tokens: nonempty, made of `\w` units of the
source string. -/
theorem wordTokens_shape (s : JStr) :
    ∀ w ∈ wordTokens s, 0 < w.length ∧ ∀ c ∈ w, isWordChar c = true ∧ c ∈ s := by
  intro w hw
  unfold wordTokens at hw
  have h1 := List.of_mem_filter hw
  have h2 := List.mem_of_mem_filter hw
  refine ⟨by simpa using h1, ?_⟩
  intro c hc
  have h3 := splitAux_mem_chars (fun c => !(isWordChar c)) s false w h2 c hc
  exact ⟨by simpa using h3.1, h3.2⟩

/-- `toLowerCase` never outputs an ASCII uppercase letter. -/
theorem jsToLower_not_upper (c : Nat) : ¬(65 ≤ jsToLower c ∧ jsToLower c ≤ 90) := by
  unfold jsToLower
  split
  · rename_i h
    simp only [Bool.and_eq_true, decide_eq_true_eq] at h
    omega
  · rename_i h
    simp only [Bool.and_eq_true, decide_eq_true_eq, not_and, not_le] at h
    omega

/-- `calculateWordFrequency` with its let-bindings expanded. -/
theorem calculateWordFrequency_eq (text : JStr) :
    calculateWordFrequency text
      = (sortByCountDesc (objectEntries
          ((wordTokens (text.map jsToLower)).foldl
            (fun acc w => if w ∈ stopWords then acc else bumpKey acc w) []))).take 20 :=
  rfl

/-- C2 counterexample: the claimed invariants fail on the one-word text
`"constructor"`.  The read in `(frequency[word] || 0) + 1` finds the
inherited `Object.prototype.constructor` function, which is truthy, so the
stored value is a string concatenation — the entry's value is not a count
(a number) at all, and the list cannot be sorted by count. -/
theorem claim_C2_counterexample :
    ¬ ((calculateWordFrequency (str "constructor")).length ≤ 20 ∧
      (∀ e ∈ calculateWordFrequency (str "constructor"),
        ∃ n : Nat, e.2 = JsVal.num n) ∧
      (calculateWordFrequency (str "constructor")).Pairwise
        (fun a b => ∀ u v : Nat,
          a.2 = JsVal.num u → b.2 = JsVal.num v → v ≤ u) ∧
      ∀ e ∈ calculateWordFrequency (str "constructor"),
        e.1 ∉ stopWords ∧ 0 < e.1.length ∧
        ∀ c ∈ e.1, isWordChar c = true ∧ ¬(65 ≤ c ∧ c ≤ 90)) := by
  intro h
  obtain ⟨n, hn⟩ := h.2.1
    (str "constructor", JsVal.str (objectProtoFnSrc ++ str "1")) (by decide)
  simp at hn

/-- C2 (amended): provided no extracted word is `constructor` (whose
inherited-property read stores a string and makes the sort comparator
inconsistent, the order then being implementation-defined), the frequency
list has at most 20 entries, every entry's value is a number, the list is
sorted by count non-increasing, stop words are excluded, and every word is
nonempty, lowercase (no ASCII uppercase unit) and consists of `\w` units
only.  `__proto__` words never create an entry — the inherited setter
swallows the write — which violates none of these invariants. -/
theorem claim_C2_frequency_invariants (text : JStr)
    (hcon : str "constructor" ∉ wordTokens (text.map jsToLower)) :
    (calculateWordFrequency text).length ≤ 20 ∧
    (∀ e ∈ calculateWordFrequency text, ∃ n : Nat, e.2 = JsVal.num n) ∧
    (calculateWordFrequency text).Pairwise
      (fun a b => ∀ u v : Nat,
        a.2 = JsVal.num u → b.2 = JsVal.num v → v ≤ u) ∧
    ∀ e ∈ calculateWordFrequency text,
      e.1 ∉ stopWords ∧ 0 < e.1.length ∧
      ∀ c ∈ e.1, isWordChar c = true ∧ ¬(65 ≤ c ∧ c ≤ 90) := by
  rw [calculateWordFrequency_eq]
  have hnum : ∀ e ∈ (wordTokens (text.map jsToLower)).foldl
      (fun acc w => if w ∈ stopWords then acc else bumpKey acc w) [],
      ∃ n : Nat, e.2 = JsVal.num n :=
    foldl_val_num _ [] (by simp) hcon
  have hmem : ∀ e ∈ (sortByCountDesc (objectEntries
      ((wordTokens (text.map jsToLower)).foldl
        (fun acc w => if w ∈ stopWords then acc else bumpKey acc w) []))).take 20,
      e ∈ (wordTokens (text.map jsToLower)).foldl
        (fun acc w => if w ∈ stopWords then acc else bumpKey acc w) [] := by
    intro e he
    exact mem_objectEntries (mem_sortByCountDesc.mp (List.mem_of_mem_take he))
  refine ⟨?_, ?_, ?_, ?_⟩
  · exact List.length_take_le _ _
  · intro e he
    exact hnum e (hmem e he)
  · refine (pairwise_sortByCountDesc _ ?_).sublist (List.take_sublist _ _)
    intro e he
    exact hnum e (mem_objectEntries he)
  · intro e he
    have h3 : e.1 ∈ ((wordTokens (text.map jsToLower)).foldl
        (fun acc w => if w ∈ stopWords then acc else bumpKey acc w) []).map
          Prod.fst :=
      List.mem_map_of_mem Prod.fst (hmem e he)
    rcases mem_keys_foldl _ [] e.1 h3 with h4 | ⟨htok, hstop⟩
    · simp at h4
    · have hshape := wordTokens_shape _ _ htok
      refine ⟨hstop, hshape.1, ?_⟩
      intro c hc
      have hcw := hshape.2 c hc
      refine ⟨hcw.1, ?_⟩
      obtain ⟨c0, _, rfl⟩ := List.mem_map.mp hcw.2
      exact jsToLower_not_upper c0

/-- C2 witness: a concrete text without the word `constructor` satisfies
every invariant. -/
theorem claim_C2_frequency_invariants_witness :
    (calculateWordFrequency (str "good good bad")).length ≤ 20 ∧
    (∀ e ∈ calculateWordFrequency (str "good good bad"),
      ∃ n : Nat, e.2 = JsVal.num n) ∧
    (calculateWordFrequency (str "good good bad")).Pairwise
      (fun a b => ∀ u v : Nat,
        a.2 = JsVal.num u → b.2 = JsVal.num v → v ≤ u) ∧
    ∀ e ∈ calculateWordFrequency (str "good good bad"),
      e.1 ∉ stopWords ∧ 0 < e.1.length ∧
      ∀ c ∈ e.1, isWordChar c = true ∧ ¬(65 ≤ c ∧ c ≤ 90) :=
  claim_C2_frequency_invariants (str "good good bad") (by decide)

/-! ### First-seen order of equal-count entries -/

/-- A word occurring in the prefix has its first occurrence inside it. -/
theorem firstIdx_append_left {w : JStr} {pre : List JStr} (rest : List JStr)
    (h : w ∈ pre) : firstIdx w (pre ++ rest) < pre.length := by
  induction pre with
  | nil => cases h
  | cons t ts ih =>
    by_cases ht : t = w
    · simp [firstIdx, ht]
    · rcases List.mem_cons.mp h with rfl | hw
      · exact absurd rfl ht
      · simp only [List.cons_append, firstIdx, if_neg ht, List.length_cons]
        exact Nat.succ_lt_succ (ih hw)

/-- A word absent from the prefix first occurs past it. -/
theorem firstIdx_append_right {w : JStr} {pre : List JStr} (rest : List JStr)
    (h : w ∉ pre) : firstIdx w (pre ++ rest) = pre.length + firstIdx w rest := by
  induction pre with
  | nil => simp
  | cons t ts ih =>
    have ht : t ≠ w := fun e => h (e ▸ List.mem_cons_self t ts)
    have hts : w ∉ ts := fun e => h (List.mem_cons_of_mem t e)
    rw [List.cons_append]
    show (if t = w then 0 else firstIdx w (ts ++ rest) + 1)
      = (t :: ts).length + firstIdx w rest
    rw [if_neg ht, ih hts, List.length_cons]
    omega

/-- Invariant of the accumulation loop: the key list of the frequency map is
ordered by strictly increasing first occurrence in the full token list. -/
theorem freq_keys_pairwise (ts : List JStr) :
    ∀ (rest : List JStr) (acc : List (JStr × JsVal)) (pre : List JStr),
      ts = pre ++ rest →
      (∀ k ∈ acc.map Prod.fst, k ∈ pre) →
      (∀ u ∈ pre, u ∉ stopWords → u ≠ str "__proto__" →
        u ∈ acc.map Prod.fst) →
      (acc.map Prod.fst).Pairwise (fun u v => firstIdx u ts < firstIdx v ts) →
      ((rest.foldl (fun acc w => if w ∈ stopWords then acc else bumpKey acc w)
          acc).map Prod.fst).Pairwise
        (fun u v => firstIdx u ts < firstIdx v ts) := by
  intro rest
  induction rest with
  | nil =>
    intro acc pre _ _ _ h4
    simpa using h4
  | cons w rest ih =>
    intro acc pre hts hsub hcov hpw
    rw [List.foldl_cons]
    by_cases hs : w ∈ stopWords
    · rw [if_pos hs]
      refine ih acc (pre ++ [w]) (by rw [hts]; simp) ?_ ?_ hpw
      · intro k hk
        exact List.mem_append_left _ (hsub k hk)
      · intro u hu hustop hup
        rcases List.mem_append.mp hu with h | h
        · exact hcov u h hustop hup
        · rcases List.mem_singleton.mp h with rfl
          exact absurd hs hustop
    · rw [if_neg hs]
      by_cases hp : w = str "__proto__"
      · simp only [bumpKey, if_pos hp]
        refine ih acc (pre ++ [w]) (by rw [hts]; simp) ?_ ?_ hpw
        · intro k hk
          exact List.mem_append_left _ (hsub k hk)
        · intro u hu hustop hup
          rcases List.mem_append.mp hu with h | h
          · exact hcov u h hustop hup
          · rcases List.mem_singleton.mp h with rfl
            exact absurd hp hup
      · simp only [bumpKey, if_neg hp]
        refine ih (bump acc w) (pre ++ [w]) (by rw [hts]; simp) ?_ ?_ ?_
        · intro k hk
          rw [bump_keys] at hk
          by_cases hm : w ∈ acc.map Prod.fst
          · rw [if_pos hm] at hk
            exact List.mem_append_left _ (hsub k hk)
          · rw [if_neg hm] at hk
            rcases List.mem_append.mp hk with h | h
            · exact List.mem_append_left _ (hsub k h)
            · rcases List.mem_singleton.mp h with rfl
              exact List.mem_append_right _ (List.mem_singleton_self k)
        · intro u hu hustop hup
          rw [bump_keys]
          rcases List.mem_append.mp hu with h | h
          · have := hcov u h hustop hup
            by_cases hm : w ∈ acc.map Prod.fst
            · rw [if_pos hm]; exact this
            · rw [if_neg hm]; exact List.mem_append_left _ this
          · rcases List.mem_singleton.mp h with rfl
            by_cases hm : u ∈ acc.map Prod.fst
            · rw [if_pos hm]; exact hm
            · rw [if_neg hm]
              exact List.mem_append_right _ (List.mem_singleton_self u)
        · rw [bump_keys]
          by_cases hm : w ∈ acc.map Prod.fst
          · rw [if_pos hm]; exact hpw
          · rw [if_neg hm]
            rw [List.pairwise_append]
            refine ⟨hpw, by simp, ?_⟩
            intro u hu v hv
            rcases List.mem_singleton.mp hv with rfl
            have hu_pre : u ∈ pre := hsub u hu
            have hv_npre : v ∉ pre := fun hwp => hm (hcov v hwp hs hp)
            have h1 : firstIdx u ts < pre.length := by
              rw [hts]
              exact firstIdx_append_left _ hu_pre
            have h2 : firstIdx v ts = pre.length := by
              rw [hts, firstIdx_append_right _ hv_npre]
              simp [firstIdx]
            omega

/-- When no key is an array index, `Object.entries` returns the entries in
insertion order. -/
theorem objectEntries_eq_self {m : List (JStr × JsVal)}
    (h : ∀ e ∈ m, isArrayIdxKey e.1 = false) : objectEntries m = m := by
  unfold objectEntries
  have h1 : m.filter (fun e => isArrayIdxKey e.1) = [] := by
    rw [List.filter_eq_nil_iff]
    intro e he
    simp [h e he]
  have h2 : m.filter (fun e => !(isArrayIdxKey e.1)) = m := by
    rw [List.filter_eq_self]
    intro e he
    simp [h e he]
  rw [h1, h2]
  simp

/-- The comparator never reports a value strictly below itself. -/
theorem valLt_irrefl (v : JsVal) : valLt v v = false := by
  cases v with
  | num n => simp [valLt]
  | str s => simp [valLt]

/-- Stability of the insertion step: a pairwise property that holds between
equal values survives insertion, because the inserted entry passes only
entries the comparator reports strictly greater. -/
theorem pairwise_tie_insertByCountDesc
    {Q : (JStr × JsVal) → (JStr × JsVal) → Prop}
    (x : JStr × JsVal) (l : List (JStr × JsVal))
    (hl : l.Pairwise (fun a b => a.2 = b.2 → Q a b))
    (hx : ∀ b ∈ l, x.2 = b.2 → Q x b) :
    (insertByCountDesc x l).Pairwise (fun a b => a.2 = b.2 → Q a b) := by
  induction l with
  | nil => simp [insertByCountDesc]
  | cons y ys ih =>
    rw [List.pairwise_cons] at hl
    obtain ⟨hy, hys⟩ := hl
    simp only [insertByCountDesc]
    split
    · rename_i hlt
      rw [List.pairwise_cons]
      refine ⟨?_, ih hys (fun b hb => hx b (List.mem_cons_of_mem _ hb))⟩
      intro z hz
      rcases mem_insertByCountDesc.mp hz with rfl | hz'
      · intro he
        rw [he] at hlt
        simp [valLt_irrefl] at hlt
      · exact hy z hz'
    · rw [List.pairwise_cons]
      refine ⟨?_, List.pairwise_cons.mpr ⟨hy, hys⟩⟩
      intro z hz
      rcases List.mem_cons.mp hz with rfl | hz'
      · exact hx z (List.mem_cons_self _ _)
      · exact hx z (List.mem_cons_of_mem _ hz')

/-- Stability of the sort: a pairwise property between equal counts is
preserved by `sortByCountDesc`. -/
theorem pairwise_tie_sortByCountDesc
    {Q : (JStr × JsVal) → (JStr × JsVal) → Prop}
    (l : List (JStr × JsVal))
    (h : l.Pairwise (fun a b => a.2 = b.2 → Q a b)) :
    (sortByCountDesc l).Pairwise (fun a b => a.2 = b.2 → Q a b) := by
  induction l with
  | nil => simp [sortByCountDesc]
  | cons x xs ih =>
    rw [List.pairwise_cons] at h
    obtain ⟨hx, hxs⟩ := h
    exact pairwise_tie_insertByCountDesc x _ (ih hxs)
      (fun b hb => hx b (mem_sortByCountDesc.mp hb))

/-- C7 (amended): among entries with equal counts, the frequency list
follows first-seen order of the words in the lowercased text, provided no
extracted word is an array-index numeral (an all-digits canonical decimal
below `2^32 - 1`) and none is `constructor`.  Numeral keys are enumerated by
`Object.entries` ahead of all other keys, breaking first-seen order; a
`constructor` entry holds an inherited-read string value that makes the sort
comparator inconsistent, leaving the program's order implementation-defined
(the `hcon` hypothesis keeps the theorem inside the well-defined regime).
`__proto__` words never create an entry, which breaks no ordering among the
entries that exist. -/
theorem claim_C7_tie_first_seen (text : JStr)
    (h : ∀ w ∈ wordTokens (text.map jsToLower), isArrayIdxKey w = false)
    (_hcon : str "constructor" ∉ wordTokens (text.map jsToLower)) :
    (calculateWordFrequency text).Pairwise (fun a b => a.2 = b.2 →
      firstIdx a.1 (wordTokens (text.map jsToLower))
        < firstIdx b.1 (wordTokens (text.map jsToLower))) := by
  rw [calculateWordFrequency_eq]
  have hkeys := freq_keys_pairwise (wordTokens (text.map jsToLower))
    (wordTokens (text.map jsToLower)) [] [] (by simp) (by simp) (by simp)
    (by simp)
  have hnoidx : ∀ e ∈ (wordTokens (text.map jsToLower)).foldl
      (fun acc w => if w ∈ stopWords then acc else bumpKey acc w) [],
      isArrayIdxKey e.1 = false := by
    intro e he
    rcases mem_keys_foldl _ [] e.1 (List.mem_map_of_mem Prod.fst he)
      with h' | ⟨htok, _⟩
    · simp at h'
    · exact h e.1 htok
  have hm_pw : ((wordTokens (text.map jsToLower)).foldl
      (fun acc w => if w ∈ stopWords then acc else bumpKey acc w) []).Pairwise
      (fun a b => a.2 = b.2 → firstIdx a.1 (wordTokens (text.map jsToLower))
        < firstIdx b.1 (wordTokens (text.map jsToLower))) := by
    refine (List.pairwise_map.mp hkeys).imp ?_
    intro a b h' _
    exact h'
  rw [objectEntries_eq_self hnoidx]
  exact (pairwise_tie_sortByCountDesc _ hm_pw).sublist (List.take_sublist _ _)

/-- C7 witness: a text with two equal-count non-numeric words keeps
first-seen order. -/
theorem claim_C7_tie_first_seen_witness :
    (calculateWordFrequency (str "bb bb aa aa")).Pairwise (fun a b => a.2 = b.2 →
      firstIdx a.1 (wordTokens ((str "bb bb aa aa").map jsToLower))
        < firstIdx b.1 (wordTokens ((str "bb bb aa aa").map jsToLower))) :=
  claim_C7_tie_first_seen (str "bb bb aa aa") (by decide) (by decide)

/-- C7 counterexample: for `"zebra zebra 5 5"` the frequency list is
`[("5", 2), ("zebra", 2)]` although `"zebra"` is first-seen before `"5"` —
the numeric key is enumerated first, so the original first-seen tie-break
claim is false. -/
theorem claim_C7_counterexample :
    ¬ (calculateWordFrequency (str "zebra zebra 5 5")).Pairwise
      (fun a b => a.2 = b.2 →
        firstIdx a.1 (wordTokens ((str "zebra zebra 5 5").map jsToLower))
          < firstIdx b.1 (wordTokens ((str "zebra zebra 5 5").map jsToLower))) := by
  decide
